import Mathlib

/-!
Verification of the framework-independent logic of the
quantum-error-mitigation repository (probabilistic error cancellation
research scripts).

The repository consists of near-duplicate Python scripts.  We shallowly
embed, file by file, every piece of logic that does not call into the
external quantum-simulation framework:

* `FcnPec`    — src/pec/functions_pec/fcn_pec.py
* `FcnBin`    — src/pec/functions_pec/fcn_bin.py
* `PecSim`    — src/pec/pec-num-sim.py
* `PecSimOld` — src/pec-num-sim.py (the inline gamma_b expression)
* `Components`— src/components/get_unitary.py and src/components/rzz.py

Python floats are modelled as real numbers; the probability lists the
median-projector logic operates on are modelled over the rationals so that
the combinatorial facts stay decidable on concrete inputs.  Calls into the
external framework (circuit construction, simulators, transpilation,
expectation values) are abstracted as parameters of a `CircuitFramework`
structure, so that the data flow of `circ_pass` can be stated exactly as
in the source.
-/

namespace QEM

/-- Python `statistics.median`: sort the data; for odd length take the
middle element, for even length the mean of the two middle elements.
(Python raises `StatisticsError` on empty input; here the empty case
returns the junk value 0 and theorems assume nonempty input.) -/
def statistics_median (data : List ℚ) : ℚ :=
  let s := data.mergeSort (fun a b => decide (a ≤ b))
  let n := data.length
  if n % 2 = 1 then s.getD (n / 2) 0
  else (s.getD (n / 2 - 1) 0 + s.getD (n / 2) 0) / 2

namespace FcnPec

/-- src/pec/functions_pec/fcn_pec.py, `calc_sim_overhead(n, d, epsilon)`:
simulation overhead gamma_b. -/
noncomputable def calc_sim_overhead (n d epsilon : ℝ) : ℝ :=
  let denom := 1 - epsilon
  let num1 := 1 + (epsilon / 2)
  let num2 := 1 + ((7 * epsilon) / 8)
  let exp1 := (n * d) / 2
  let exp2 := (n * d) / 4
  let single_gb := (num1 / denom) ^ exp1
  let cnot_gb := (num2 / denom) ^ exp2
  let gamma_b := single_gb * cnot_gb
  gamma_b

/-- src/pec/functions_pec/fcn_pec.py, `get_projector_geq_median(psi)`:
the framework-independent core, building `state_list` from the
probability vector `probs = psi.probabilities()`.  Each probability
strictly below the median contributes a 0, each probability at or above
the median contributes a 1 (the `if`/`elif` chain appends nothing when
neither branch fires, hence the flatMap).  The final conversion
`Statevector(state_list).to_operator()` is a framework call and is not
modelled; the mask `state_list` is the output here. -/
def get_projector_geq_median (probs : List ℚ) : List ℕ :=
  let median := statistics_median probs
  probs.flatMap (fun p => if p < median then [0] else if p ≥ median then [1] else [])

/-- src/pec/functions_pec/fcn_pec.py, `calc_delta_zero(eval_ideal, eval_noise)`:
absolute value of the difference of the two expectation values (complex
in general, Python `abs` is the modulus). -/
noncomputable def calc_delta_zero (eval_ideal eval_noise : ℂ) : ℝ :=
  Complex.abs (eval_noise - eval_ideal)

end FcnPec

namespace FcnBin

/-- The loop of `create_bins`: `count` starts at `lower_bound`, and each
iteration appends the bin `(count, count + width)` and advances `count`
by `width`. -/
def create_bins_loop (width count : ℚ) : ℕ → List (ℚ × ℚ)
  | 0 => []
  | Nat.succ q => (count, count + width) :: create_bins_loop width (count + width) q

/-- src/pec/functions_pec/fcn_bin.py, `create_bins(lower_bound, width, quantity)`. -/
def create_bins (lower_bound width : ℚ) (quantity : ℕ) : List (ℚ × ℚ) :=
  create_bins_loop width lower_bound quantity

/-- The loop of `find_bin`, carrying the current index `i`. -/
def find_bin_loop (value : ℚ) : List (ℚ × ℚ) → ℕ → ℤ
  | [], _ => -1
  | b :: rest, i =>
      if b.1 ≤ value ∧ value < b.2 then (i : ℤ) else find_bin_loop value rest (i + 1)

/-- src/pec/functions_pec/fcn_bin.py, `find_bin(value, bins)`: linear scan
returning the first index whose bin contains the value, and the sentinel
-1 when none does. -/
def find_bin (value : ℚ) (bins : List (ℚ × ℚ)) : ℤ :=
  find_bin_loop value bins 0

end FcnBin

namespace PecSim

/-- src/pec/pec-num-sim.py, `calc_sim_overhead(n, d, epsilon)` (duplicate
copy of the fcn_pec.py function). -/
noncomputable def calc_sim_overhead (n d epsilon : ℝ) : ℝ :=
  let denom := 1 - epsilon
  let num1 := 1 + (epsilon / 2)
  let num2 := 1 + ((7 * epsilon) / 8)
  let exp1 := (n * d) / 2
  let exp2 := (n * d) / 4
  let single_gb := (num1 / denom) ^ exp1
  let cnot_gb := (num2 / denom) ^ exp2
  let gamma_b := single_gb * cnot_gb
  gamma_b

/-- src/pec/pec-num-sim.py, `get_projector_geq_med(psi)` (duplicate copy
of `get_projector_geq_median` from fcn_pec.py), modelled on the
probability vector exactly as `FcnPec.get_projector_geq_median`. -/
def get_projector_geq_med (probs : List ℚ) : List ℕ :=
  let median := statistics_median probs
  probs.flatMap (fun p => if p < median then [0] else if p ≥ median then [1] else [])

/-- The loop of the duplicate `create_bins` in src/pec/pec-num-sim.py. -/
def create_bins_loop (width count : ℚ) : ℕ → List (ℚ × ℚ)
  | 0 => []
  | Nat.succ q => (count, count + width) :: create_bins_loop width (count + width) q

/-- src/pec/pec-num-sim.py, `create_bins(lower_bound, width, quantity)`
(duplicate copy of the fcn_bin.py function). -/
def create_bins (lower_bound width : ℚ) (quantity : ℕ) : List (ℚ × ℚ) :=
  create_bins_loop width lower_bound quantity

/-- The loop of the duplicate `find_bin` in src/pec/pec-num-sim.py. -/
def find_bin_loop (value : ℚ) : List (ℚ × ℚ) → ℕ → ℤ
  | [], _ => -1
  | b :: rest, i =>
      if b.1 ≤ value ∧ value < b.2 then (i : ℤ) else find_bin_loop value rest (i + 1)

/-- src/pec/pec-num-sim.py, `find_bin(value, bins)` (duplicate copy of the
fcn_bin.py function). -/
def find_bin (value : ℚ) (bins : List (ℚ × ℚ)) : ℤ :=
  find_bin_loop value bins 0

/-- The external framework operations `circ_pass` calls, abstracted: the
randomly built circuit, the ground state, noiseless statevector
evolution, the projector construction, the statevector checkpoint,
transpilation for each backend, the ideal and the depolarizing-noise
simulator runs, and expectation values. -/
structure CircuitFramework (Circuit State Operator : Type) where
  get_qc_ub : Circuit
  ground_state : State
  evolve : State → Circuit → State
  get_projector_geq_med : State → Operator
  save_statevector : Circuit → Circuit
  transpile_ideal : Circuit → Circuit
  run_ideal : Circuit → State
  transpile_noisy : Circuit → Circuit
  run_noisy : Circuit → State
  expectation_value : State → Operator → ℂ

/-- src/pec/pec-num-sim.py, `circ_pass(n, d, epsilon, M, gate_list,
gate_names)`: the exact data flow of the function body, with every
framework call taken from `fw`.  The circuit is built once; `psi` is the
ground state evolved (noiselessly) by it; the observable `A` is the
median projector of `psi`; the statevector checkpoint is appended; the
ideal and the noisy simulations are run on transpiled copies of that same
circuit; both expectation values are taken with the same `A`; the result
is the absolute difference. -/
noncomputable def circ_pass {Circuit State Operator : Type}
    (fw : CircuitFramework Circuit State Operator) : ℝ :=
  let qc := fw.get_qc_ub
  let psi := fw.evolve fw.ground_state qc
  let A := fw.get_projector_geq_med psi
  let qc1 := fw.save_statevector qc
  let qc_ideal := fw.transpile_ideal qc1
  let psi_ideal := fw.run_ideal qc_ideal
  let eval_ideal := fw.expectation_value psi_ideal A
  let qc_noisy := fw.transpile_noisy qc1
  let psi_dk := fw.run_noisy qc_noisy
  let eval_dk := fw.expectation_value psi_dk A
  let delta_zero := Complex.abs (eval_dk - eval_ideal)
  delta_zero

/-- The intermediate value `eval_ideal` of `circ_pass`. -/
noncomputable def circ_pass_eval_ideal {Circuit State Operator : Type}
    (fw : CircuitFramework Circuit State Operator) : ℂ :=
  fw.expectation_value (fw.run_ideal (fw.transpile_ideal (fw.save_statevector fw.get_qc_ub)))
    (fw.get_projector_geq_med (fw.evolve fw.ground_state fw.get_qc_ub))

/-- The intermediate value `eval_dk` of `circ_pass`. -/
noncomputable def circ_pass_eval_dk {Circuit State Operator : Type}
    (fw : CircuitFramework Circuit State Operator) : ℂ :=
  fw.expectation_value (fw.run_noisy (fw.transpile_noisy (fw.save_statevector fw.get_qc_ub)))
    (fw.get_projector_geq_med (fw.evolve fw.ground_state fw.get_qc_ub))

end PecSim

namespace PecSimOld

/-- src/pec-num-sim.py line 19, the inline simulation-overhead expression
`gamma_b = (((1+epsilon/2)/(1-epsilon))**(n*d/2)*(((1+7*epsilon/8)/(1-epsilon))**(n*d/4)))`,
as a function of the script variables n, d, epsilon. -/
noncomputable def gamma_b (n d epsilon : ℝ) : ℝ :=
  ((1 + epsilon / 2) / (1 - epsilon)) ^ (n * d / 2)
    * (((1 + 7 * epsilon / 8) / (1 - epsilon)) ^ (n * d / 4))

end PecSimOld

namespace Components

/-- A minimal model of the Python runtime values `get_unitary` can meet:
instances of a class, class objects (types), and the unitary matrix the
backend would produce for a circuit. -/
inductive PyVal where
  | instanceOf (className : String)
  | classObj (className : String)
  | unitaryMatrix (ofCircuit : String)
  deriving DecidableEq

/-- Python `isinstance(obj, classinfo)`: when `classinfo` is a class
object the test is answered; when `classinfo` is any other value —
an instance, for example — CPython raises
`TypeError: isinstance() arg 2 must be a type or tuple of types`. -/
def isinstance (obj classinfo : PyVal) : Except String Bool :=
  match classinfo with
  | .classObj c =>
      match obj with
      | .instanceOf c2 => .ok (decide (c2 = c))
      | _ => .ok false
  | _ => .error "TypeError: isinstance() arg 2 must be a type or tuple of types"

/-- The expression `QuantumCircuit()` in the guard of `get_unitary`:
calling the class produces an instance, not a type. -/
def QuantumCircuit_call : PyVal := PyVal.instanceOf "QuantumCircuit"

/-- src/components/get_unitary.py, `get_unitary(qc, backend, nd)`:
`if not isinstance(qc, QuantumCircuit()): raise TypeError(...) else:
run the backend and return the unitary`.  The isinstance call is
evaluated first; its outcome decides which branch runs. -/
def get_unitary (qc : PyVal) : Except String PyVal :=
  match isinstance qc QuantumCircuit_call with
  | .error e => .error e
  | .ok b =>
      if ¬ b then .error "TypeError: expecting type QuantumCircuit"
      else .ok (.unitaryMatrix "qc")

/-- The instructions `get_rzz` appends to its two-qubit circuit. -/
inductive RzzInstr where
  | sdg (q : ℕ)
  | sy (q : ℕ)
  | cx (ctrl tgt : ℕ)
  | sydg (q : ℕ)
  | addGlobalPhasePiOverFour
  deriving DecidableEq

/-- A two-qubit circuit as `get_rzz` builds it: the register size and the
instruction sequence. -/
structure RzzCircuit where
  qubits : ℕ
  instrs : List RzzInstr
  deriving DecidableEq

/-- The circuit the body of `get_rzz` constructs and binds to the local
name `qc_zz`: SDG on 0, SDG on 1, SY on 1, CX 0 1, SYDG on 1, then the
global-phase correction by pi/4. -/
def qc_zz : RzzCircuit :=
  { qubits := 2
    instrs := [RzzInstr.sdg 0, RzzInstr.sdg 1, RzzInstr.sy 1,
               RzzInstr.cx 0 1, RzzInstr.sydg 1,
               RzzInstr.addGlobalPhasePiOverFour] }

/-- The circuit-valued local environment of `get_rzz` at its return
statement: the only circuit bound is `qc_zz`. -/
def get_rzz_env : List (String × RzzCircuit) := [("qc_zz", qc_zz)]

/-- src/components/rzz.py, `get_rzz()`: the body builds `qc_zz` but the
return statement reads the name `qc_rzz`, which Python resolves in the
local environment; an unbound name raises NameError. -/
def get_rzz : Except String RzzCircuit :=
  match get_rzz_env.lookup "qc_rzz" with
  | some c => .ok c
  | none => .error "NameError: name qc_rzz is not defined"

end Components

end QEM

/-! ## Helper lemmas -/

namespace QEM

theorem create_bins_loop_eq (width count : ℚ) (q : ℕ) :
    FcnBin.create_bins_loop width count q = PecSim.create_bins_loop width count q := by
  induction q generalizing count with
  | zero => rfl
  | succ q ih => simp [FcnBin.create_bins_loop, PecSim.create_bins_loop, ih]

theorem find_bin_loop_eq (value : ℚ) (bins : List (ℚ × ℚ)) (i : ℕ) :
    FcnBin.find_bin_loop value bins i = PecSim.find_bin_loop value bins i := by
  induction bins generalizing i with
  | nil => rfl
  | cons b rest ih => simp [FcnBin.find_bin_loop, PecSim.find_bin_loop, ih]

theorem create_bins_loop_length (width count : ℚ) (q : ℕ) :
    (FcnBin.create_bins_loop width count q).length = q := by
  induction q generalizing count with
  | zero => rfl
  | succ q ih => simp [FcnBin.create_bins_loop, ih]

theorem create_bins_loop_getD (width count : ℚ) (q i : ℕ) (h : i < q) :
    (FcnBin.create_bins_loop width count q).getD i (0, 0)
      = (count + i * width, count + i * width + width) := by
  induction q generalizing count i with
  | zero => exact absurd h (Nat.not_lt_zero i)
  | succ q ih =>
    cases i with
    | zero => simp [FcnBin.create_bins_loop]
    | succ i =>
      rw [FcnBin.create_bins_loop, List.getD_cons_succ, ih (count + width) i (by omega)]
      simp only [Prod.mk.injEq]
      constructor <;> push_cast <;> ring

theorem find_bin_loop_spec (value : ℚ) (bins : List (ℚ × ℚ)) (k : ℕ) :
    (∃ i : ℕ, i < bins.length
        ∧ FcnBin.find_bin_loop value bins k = ((k + i : ℕ) : ℤ)
        ∧ ((bins.getD i (0, 0)).1 ≤ value ∧ value < (bins.getD i (0, 0)).2)
        ∧ ∀ j : ℕ, j < i →
            ¬((bins.getD j (0, 0)).1 ≤ value ∧ value < (bins.getD j (0, 0)).2))
    ∨ (FcnBin.find_bin_loop value bins k = -1
        ∧ ∀ i : ℕ, i < bins.length →
            ¬((bins.getD i (0, 0)).1 ≤ value ∧ value < (bins.getD i (0, 0)).2)) := by
  induction bins generalizing k with
  | nil =>
    right
    exact ⟨rfl, fun i hi => absurd hi (Nat.not_lt_zero i)⟩
  | cons b rest ih =>
    by_cases hb : b.1 ≤ value ∧ value < b.2
    · left
      refine ⟨0, Nat.succ_pos _, ?_, by simpa using hb, ?_⟩
      · simp [FcnBin.find_bin_loop, hb]
      · intro j hj
        exact absurd hj (Nat.not_lt_zero j)
    · rcases ih (k + 1) with ⟨i, hi, heq, hin, hmin⟩ | ⟨heq, hnone⟩
      · left
        refine ⟨i + 1, Nat.succ_lt_succ hi, ?_, by simpa using hin, ?_⟩
        · rw [show FcnBin.find_bin_loop value (b :: rest) k
                = FcnBin.find_bin_loop value rest (k + 1) by
              simp [FcnBin.find_bin_loop, hb], heq]
          push_cast
          ring
        · intro j hj
          cases j with
          | zero => simpa using hb
          | succ j =>
            intro hc
            exact hmin j (Nat.lt_of_succ_lt_succ hj) (by simpa using hc)
      · right
        refine ⟨?_, ?_⟩
        · rw [show FcnBin.find_bin_loop value (b :: rest) k
                = FcnBin.find_bin_loop value rest (k + 1) by
              simp [FcnBin.find_bin_loop, hb]]
          exact heq
        · intro i hilen
          cases i with
          | zero => simpa using hb
          | succ i =>
            intro hc
            exact hnone i (Nat.lt_of_succ_lt_succ hilen) (by simpa using hc)

/-! ## Claim theorems -/

/-- C2: for every n, d, epsilon, calc_sim_overhead returns
((1 + epsilon/2)/(1 - epsilon))^(n*d/2) * ((1 + 7*epsilon/8)/(1 - epsilon))^(n*d/4). -/
theorem calc_sim_overhead_formula (n d epsilon : ℝ) :
    FcnPec.calc_sim_overhead n d epsilon =
      ((1 + epsilon / 2) / (1 - epsilon)) ^ (n * d / 2)
        * ((1 + 7 * epsilon / 8) / (1 - epsilon)) ^ (n * d / 4) := rfl

/-- C3: create_bins returns an equal-width ascending partition of exactly
`quantity` tuples: the first lower bound is `lower_bound`, each upper bound
is the lower bound plus `width`, and consecutive bins are shifted by
`width` in both components. -/
theorem create_bins_spec (lower_bound width : ℚ) (quantity : ℕ) :
    (FcnBin.create_bins lower_bound width quantity).length = quantity
    ∧ (0 < quantity →
        ((FcnBin.create_bins lower_bound width quantity).getD 0 (0, 0)).1 = lower_bound)
    ∧ (∀ i : ℕ, i < quantity →
        ((FcnBin.create_bins lower_bound width quantity).getD i (0, 0)).1 + width
          = ((FcnBin.create_bins lower_bound width quantity).getD i (0, 0)).2)
    ∧ (∀ i : ℕ, 0 < i → i < quantity →
        ((FcnBin.create_bins lower_bound width quantity).getD (i - 1) (0, 0)).1 + width
          = ((FcnBin.create_bins lower_bound width quantity).getD i (0, 0)).1
        ∧ ((FcnBin.create_bins lower_bound width quantity).getD (i - 1) (0, 0)).2 + width
          = ((FcnBin.create_bins lower_bound width quantity).getD i (0, 0)).2) := by
  refine ⟨create_bins_loop_length width lower_bound quantity, ?_, ?_, ?_⟩
  · intro h
    rw [FcnBin.create_bins, create_bins_loop_getD width lower_bound quantity 0 h]
    simp
  · intro i hi
    rw [FcnBin.create_bins, create_bins_loop_getD width lower_bound quantity i hi]
  · intro i h0 hi
    rw [FcnBin.create_bins, create_bins_loop_getD width lower_bound quantity (i - 1) (by omega),
      create_bins_loop_getD width lower_bound quantity i hi, Nat.cast_sub h0]
    exact ⟨by push_cast; ring, by push_cast; ring⟩

/-- C4: find_bin performs a linear scan returning the smallest index i with
bins[i][0] <= value < bins[i][1], and the sentinel -1 (never an
exception: the Lean model is a total function into the integers) when no
bin contains the value. -/
theorem find_bin_spec (value : ℚ) (bins : List (ℚ × ℚ)) :
    (∃ i : ℕ, i < bins.length
        ∧ FcnBin.find_bin value bins = (i : ℤ)
        ∧ ((bins.getD i (0, 0)).1 ≤ value ∧ value < (bins.getD i (0, 0)).2)
        ∧ ∀ j : ℕ, j < i →
            ¬((bins.getD j (0, 0)).1 ≤ value ∧ value < (bins.getD j (0, 0)).2))
    ∨ (FcnBin.find_bin value bins = -1
        ∧ ∀ i : ℕ, i < bins.length →
            ¬((bins.getD i (0, 0)).1 ≤ value ∧ value < (bins.getD i (0, 0)).2)) := by
  simpa [FcnBin.find_bin] using find_bin_loop_spec value bins 0

/-- C5: calc_delta_zero equals the absolute value of eval_noise -
eval_ideal, is non-negative and symmetric; and circ_pass ends by
computing exactly calc_delta_zero of its two intermediate expectation
values. -/
theorem calc_delta_zero_spec :
    (∀ eval_ideal eval_noise : ℂ,
        FcnPec.calc_delta_zero eval_ideal eval_noise = Complex.abs (eval_noise - eval_ideal)
        ∧ 0 ≤ FcnPec.calc_delta_zero eval_ideal eval_noise
        ∧ FcnPec.calc_delta_zero eval_ideal eval_noise
            = FcnPec.calc_delta_zero eval_noise eval_ideal)
    ∧ ∀ (Circuit State Operator : Type)
        (fw : PecSim.CircuitFramework Circuit State Operator),
        PecSim.circ_pass fw
          = FcnPec.calc_delta_zero (PecSim.circ_pass_eval_ideal fw)
              (PecSim.circ_pass_eval_dk fw) := by
  constructor
  · intro a b
    refine ⟨rfl, AbsoluteValue.nonneg Complex.abs _, ?_⟩
    exact AbsoluteValue.map_sub Complex.abs b a
  · intro Circuit State Operator fw
    rfl

/-- C6: the near-duplicate copies of the framework-independent utilities
compute the same functions, and the inline gamma_b expression equals
calc_sim_overhead at the same arguments. -/
theorem duplicate_copies_agree :
    (∀ n d epsilon : ℝ,
        FcnPec.calc_sim_overhead n d epsilon = PecSim.calc_sim_overhead n d epsilon)
    ∧ (∀ (lower_bound width : ℚ) (quantity : ℕ),
        FcnBin.create_bins lower_bound width quantity
          = PecSim.create_bins lower_bound width quantity)
    ∧ (∀ (value : ℚ) (bins : List (ℚ × ℚ)),
        FcnBin.find_bin value bins = PecSim.find_bin value bins)
    ∧ (∀ n d epsilon : ℝ,
        PecSimOld.gamma_b n d epsilon = FcnPec.calc_sim_overhead n d epsilon) :=
  ⟨fun _ _ _ => rfl,
   fun lower_bound width quantity => create_bins_loop_eq width lower_bound quantity,
   fun value bins => find_bin_loop_eq value bins 0,
   fun _ _ _ => rfl⟩

/-- C7: in circ_pass the observable A is the median projector of the
ideal (noiseless) evolution of the ground state by the random circuit,
and this same A is the observable of both the ideal and the noisy
expectation values whose absolute difference is the returned delta_0. -/
theorem circ_pass_observable_spec :
    ∀ (Circuit State Operator : Type)
      (fw : PecSim.CircuitFramework Circuit State Operator),
      ∃ A : Operator,
        A = fw.get_projector_geq_med (fw.evolve fw.ground_state fw.get_qc_ub)
        ∧ PecSim.circ_pass fw
            = Complex.abs
                (fw.expectation_value
                    (fw.run_noisy (fw.transpile_noisy (fw.save_statevector fw.get_qc_ub))) A
                  - fw.expectation_value
                      (fw.run_ideal (fw.transpile_ideal (fw.save_statevector fw.get_qc_ub))) A) :=
  fun _ _ _ fw =>
    ⟨fw.get_projector_geq_med (fw.evolve fw.ground_state fw.get_qc_ub), rfl, rfl⟩

/-- C8 (code bug): get_rzz never returns the circuit it constructs — the
return statement reads the unbound name qc_rzz (the circuit is bound to
qc_zz), so every call raises NameError. -/
theorem get_rzz_raises_name_error :
    Components.get_rzz = Except.error "NameError: name qc_rzz is not defined"
    ∧ ∀ c : Components.RzzCircuit, Components.get_rzz ≠ Except.ok c := by
  have he : Components.get_rzz = Except.error "NameError: name qc_rzz is not defined" := rfl
  exact ⟨he, fun c h => by rw [he] at h; exact Except.noConfusion h⟩

/-- C9: get_unitary raises TypeError for every argument: the guard calls
isinstance with the instance QuantumCircuit() as its second argument, so
the isinstance call itself raises TypeError before either branch can run,
and the function never returns a value. -/
theorem get_unitary_always_type_error :
    ∀ qc : Components.PyVal,
      Components.get_unitary qc
        = Except.error "TypeError: isinstance() arg 2 must be a type or tuple of types"
      ∧ ∀ r : Components.PyVal, Components.get_unitary qc ≠ Except.ok r := by
  intro qc
  refine ⟨rfl, ?_⟩
  intro r h
  simp [Components.get_unitary, Components.isinstance, Components.QuantumCircuit_call] at h

end QEM

namespace QEM

theorem mask_eq_map (m : ℚ) (probs : List ℚ) :
    probs.flatMap (fun p => if p < m then [0] else if p ≥ m then [1] else [])
      = probs.map (fun p => if p < m then (0 : ℕ) else 1) := by
  induction probs with
  | nil => rfl
  | cons p rest ih =>
    by_cases hp : p < m
    · simp [hp, ih]
    · simp [hp, le_of_not_lt hp, ih]

theorem get_projector_eq_map (probs : List ℚ) :
    FcnPec.get_projector_geq_median probs
      = probs.map (fun p => if p < statistics_median probs then (0 : ℕ) else 1) := by
  simp only [FcnPec.get_projector_geq_median]
  exact mask_eq_map (statistics_median probs) probs

theorem count_one_mask (m : ℚ) (probs : List ℚ) :
    (probs.map (fun p => if p < m then (0 : ℕ) else 1)).count 1
      = probs.countP (fun p => decide (m ≤ p)) := by
  induction probs with
  | nil => rfl
  | cons p rest ih =>
    by_cases hp : p < m
    · simp [List.count_cons, List.countP_cons, hp, not_le.mpr hp, ih]
    · simp [List.count_cons, List.countP_cons, hp, not_lt.mp hp, ih]

theorem statistics_median_le_mid (probs : List ℚ) (h : probs ≠ []) :
    statistics_median probs
      ≤ (probs.mergeSort (fun a b => decide (a ≤ b))).getD (probs.length / 2) 0 := by
  have hn : 0 < probs.length := List.length_pos.mpr h
  have hlen : (probs.mergeSort (fun a b => decide (a ≤ b))).length = probs.length :=
    (List.mergeSort_perm probs _).length_eq
  have hsort : List.Sorted (· ≤ ·) (probs.mergeSort (fun a b => decide (a ≤ b))) :=
    List.sorted_mergeSort' probs
  simp only [statistics_median]
  by_cases hpar : probs.length % 2 = 1
  · rw [if_pos hpar]
  · rw [if_neg hpar]
    have h2 : 2 ≤ probs.length := by omega
    have hi2 : probs.length / 2 < (probs.mergeSort (fun a b => decide (a ≤ b))).length := by
      omega
    have hi1 : probs.length / 2 - 1 < (probs.mergeSort (fun a b => decide (a ≤ b))).length := by
      omega
    have h12 : (probs.mergeSort (fun a b => decide (a ≤ b))).getD (probs.length / 2 - 1) 0
        ≤ (probs.mergeSort (fun a b => decide (a ≤ b))).getD (probs.length / 2) 0 := by
      rw [List.getD_eq_getElem _ _ hi1, List.getD_eq_getElem _ _ hi2]
      have := hsort.get_mono (a := ⟨probs.length / 2 - 1, hi1⟩)
        (b := ⟨probs.length / 2, hi2⟩) (Fin.mk_le_mk.mpr (by omega))
      simpa [List.get_eq_getElem] using this
    linarith

/-- C1: the median-threshold construction is a single pass over probs
building a mask of the same length, with a 1 at exactly the positions
whose probability is at or above the median and a 0 at exactly the
positions whose probability is strictly below it; the duplicate copy
get_projector_geq_med computes the same mask. -/
theorem get_projector_mask_spec (probs : List ℚ) :
    (FcnPec.get_projector_geq_median probs).length = probs.length
    ∧ (∀ i : ℕ, i < probs.length →
        ((FcnPec.get_projector_geq_median probs).getD i 0 = 1
            ↔ statistics_median probs ≤ probs.getD i 0)
        ∧ ((FcnPec.get_projector_geq_median probs).getD i 0 = 0
            ↔ probs.getD i 0 < statistics_median probs))
    ∧ PecSim.get_projector_geq_med probs = FcnPec.get_projector_geq_median probs := by
  refine ⟨?_, ?_, rfl⟩
  · rw [get_projector_eq_map, List.length_map]
  · intro i hi
    have hmask : (FcnPec.get_projector_geq_median probs).getD i 0
        = if probs.getD i 0 < statistics_median probs then 0 else 1 := by
      rw [get_projector_eq_map,
        List.getD_eq_getElem _ _ (by simpa using hi), List.getElem_map,
        List.getD_eq_getElem _ _ hi]
    rw [hmask]
    by_cases hp : probs.getD i 0 < statistics_median probs
    · rw [if_pos hp]
      exact ⟨iff_of_false (by decide) (not_le.mpr hp), iff_of_true rfl hp⟩
    · rw [if_neg hp]
      exact ⟨iff_of_true rfl (not_lt.mp hp), iff_of_false (by decide) hp⟩

/-- C10: for every nonempty probability vector the mask keeps at least
ceil(len/2) basis states: at least (len + 1) / 2 of its entries are 1
(in both duplicate copies of the projector function). -/
theorem get_projector_mask_count (probs : List ℚ) (h : probs ≠ []) :
    (probs.length + 1) / 2 ≤ (FcnPec.get_projector_geq_median probs).count 1
    ∧ (probs.length + 1) / 2 ≤ (PecSim.get_projector_geq_med probs).count 1 := by
  have hn : 0 < probs.length := List.length_pos.mpr h
  have hperm : (probs.mergeSort (fun a b => decide (a ≤ b))).Perm probs :=
    List.mergeSort_perm probs _
  have hlen : (probs.mergeSort (fun a b => decide (a ≤ b))).length = probs.length :=
    hperm.length_eq
  have hsort : List.Sorted (· ≤ ·) (probs.mergeSort (fun a b => decide (a ≤ b))) :=
    List.sorted_mergeSort' probs
  have hcount : (FcnPec.get_projector_geq_median probs).count 1
      = probs.countP (fun p => decide (statistics_median probs ≤ p)) := by
    rw [get_projector_eq_map, count_one_mask]
  have hi2 : probs.length / 2 < (probs.mergeSort (fun a b => decide (a ≤ b))).length := by
    omega
  have hmid : statistics_median probs
      ≤ (probs.mergeSort (fun a b => decide (a ≤ b)))[probs.length / 2] := by
    have := statistics_median_le_mid probs h
    rwa [List.getD_eq_getElem _ _ hi2] at this
  have hdrop : ∀ x ∈ (probs.mergeSort (fun a b => decide (a ≤ b))).drop (probs.length / 2),
      statistics_median probs ≤ x := by
    intro x hx
    obtain ⟨j, hj, rfl⟩ := List.mem_iff_getElem.mp hx
    rw [List.getElem_drop]
    have hj2 : probs.length / 2 + j
        < (probs.mergeSort (fun a b => decide (a ≤ b))).length := by
      rw [List.length_drop] at hj
      omega
    refine le_trans hmid ?_
    have := hsort.get_mono (a := ⟨probs.length / 2, hi2⟩)
      (b := ⟨probs.length / 2 + j, hj2⟩) (Fin.mk_le_mk.mpr (Nat.le_add_right _ _))
    simpa [List.get_eq_getElem] using this
  have hdropcount :
      ((probs.mergeSort (fun a b => decide (a ≤ b))).drop (probs.length / 2)).countP
          (fun p => decide (statistics_median probs ≤ p))
        = ((probs.mergeSort (fun a b => decide (a ≤ b))).drop (probs.length / 2)).length := by
    rw [List.countP_eq_length]
    intro a ha
    simpa using hdrop a ha
  have hge :
      ((probs.mergeSort (fun a b => decide (a ≤ b))).drop (probs.length / 2)).countP
          (fun p => decide (statistics_median probs ≤ p))
        ≤ (probs.mergeSort (fun a b => decide (a ≤ b))).countP
            (fun p => decide (statistics_median probs ≤ p)) := by
    conv_rhs =>
      rw [← List.take_append_drop (probs.length / 2)
        (probs.mergeSort (fun a b => decide (a ≤ b)))]
    rw [List.countP_append]
    omega
  have hsplit : probs.countP (fun p => decide (statistics_median probs ≤ p))
      = (probs.mergeSort (fun a b => decide (a ≤ b))).countP
          (fun p => decide (statistics_median probs ≤ p)) :=
    (hperm.countP_eq _).symm
  have hlen_drop :
      ((probs.mergeSort (fun a b => decide (a ≤ b))).drop (probs.length / 2)).length
        = probs.length - probs.length / 2 := by
    rw [List.length_drop, hlen]
  have key : (probs.length + 1) / 2 ≤ (FcnPec.get_projector_geq_median probs).count 1 := by
    rw [hcount, hsplit]
    have hfinal : probs.length - probs.length / 2
        ≤ (probs.mergeSort (fun a b => decide (a ≤ b))).countP
            (fun p => decide (statistics_median probs ≤ p)) := by
      rw [← hlen_drop, ← hdropcount]
      exact hge
    omega
  exact ⟨key, key⟩

/-- C10 witness: on the concrete probability vector [1/2, 1/3, 1/6] the
mask keeps 2 of the 3 basis states, which is at least ceil(3/2) = 2. -/
theorem get_projector_mask_count_witness :
    ((([1/2, 1/3, 1/6] : List ℚ).length + 1) / 2
        ≤ (FcnPec.get_projector_geq_median [1/2, 1/3, 1/6]).count 1)
    ∧ ((([1/2, 1/3, 1/6] : List ℚ).length + 1) / 2
        ≤ (PecSim.get_projector_geq_med [1/2, 1/3, 1/6]).count 1) :=
  get_projector_mask_count [1/2, 1/3, 1/6] (by decide)

end QEM
